import Mathlib

/-!
Verification of the numeric core of `ephys` (clustering / waveform analysis).

The Python sources under `ephys/clust.py` and `ephys/rasters.py` operate on
numpy arrays.  We embed them shallowly: one-dimensional float arrays become
`List ℚ` (exact arithmetic in place of IEEE doubles), two-dimensional arrays
become `List (List ℚ)` (rows), and fallible float results (`np.nan`) become
`Option ℚ`.  File access, HDF5 readers and probe loading are external
collaborators: their results appear here as fields of a `Block` structure or
as explicit arguments.  `scipy.interpolate.UnivariateSpline` is likewise
external; the interpolant it builds is modelled as an uninterpreted function
`spl : ℚ → ℚ` that the code applies pointwise.
-/

namespace Ephys

/-- Model of `np.sign` on an exact scalar: -1, 0 or 1. -/
def npSign (x : ℚ) : ℤ :=
  if x < 0 then -1 else if x = 0 then 0 else 1

/-- Model of `arr.max()` for a one-dimensional array, as a fold (0 on the empty array,
which numpy rejects; all uses below assume a non-empty array). -/
def listMax (l : List ℚ) : ℚ :=
  match l with
  | [] => 0
  | x :: xs => xs.foldl max x

/-- Model of `arr.min()` for a one-dimensional array. -/
def listMin (l : List ℚ) : ℚ :=
  match l with
  | [] => 0
  | x :: xs => xs.foldl min x

/-- Model of `arr.argmax()`: index of the first occurrence of the maximum. -/
def argmaxIdx (l : List ℚ) : ℕ :=
  l.findIdx (fun x => decide (x = listMax l))

/-- Model of `arr.argmin()`: index of the first occurrence of the minimum. -/
def argminIdx (l : List ℚ) : ℕ :=
  l.findIdx (fun x => decide (x = listMin l))

/-- Model of `np.arange(0, stop, step)` for a positive `step`:
`[0, step, 2*step, ...]`, of length `⌈stop/step⌉`. -/
def arange (stop step : ℚ) : List ℚ :=
  (List.range ⌈stop / step⌉.toNat).map (fun (k : ℕ) => (k : ℚ) * step)

/-- Embedding of `upsample_spike(spike_shape, fs, new_fs)` from `clust.py`.  The spline
built by `UnivariateSpline(t, spike_shape)` is the uninterpreted `spl`;
the function returns the new time grid and the spline sampled on it. -/
def upsample_spike (spl : ℚ → ℚ) (spike_shape : List ℚ) (fs new_fs : ℚ) :
    List ℚ × List ℚ :=
  let t_max : ℚ := (spike_shape.length : ℚ) / fs
  let _t : List ℚ := (arange t_max (1 / fs)).take spike_shape.length
  let ts : List ℚ := arange t_max (1 / new_fs)
  (ts, ts.map spl)

/-- Embedding of `get_troughpeak(time, spike_shape)` from `clust.py`: time of the global
minimum, and time of the maximum over the samples from the trough onwards. -/
def get_troughpeak (time spike_shape : List ℚ) : ℚ × ℚ :=
  let trough_i := argminIdx spike_shape
  let peak_i := argmaxIdx (spike_shape.drop trough_i) + trough_i
  (time.getD trough_i 0, time.getD peak_i 0)

/-- Embedding of `get_width(block_path, cluster, new_fs)` from `clust.py`, with the
exemplar waveform, sampling rate and spline supplied by the (external)
loaders: peak time minus trough time of the upsampled exemplar. -/
def get_width (spl : ℚ → ℚ) (exemplar : List ℚ) (fs new_fs : ℚ) : ℚ :=
  let tv := upsample_spike spl exemplar fs new_fs
  let tp := get_troughpeak tv.1 tv.2
  tp.2 - tp.1

/-- Positions of the sign changes of `s`:
`np.where(np.diff(np.sign(s)))[0]`, i.e. the indices `i` with
`sign s[i+1] ≠ sign s[i]`. -/
def zeroCrossings (s : List ℚ) : List ℕ :=
  (List.range (s.length - 1)).filter
    (fun i => decide (npSign (s.getD (i + 1) 0) ≠ npSign (s.getD i 0)))

/-- Embedding of `get_width_half_height(time, spike_shape)` from `clust.py`, as a state
passing embedding.  The Python function mutates its argument in place with
`spike_shape /= -spike_shape.min()` (line 218) and then rebinds the local
name with `spike_shape = spike_shape + 0.5` (line 219, not in place).  The
second component of the result is the buffer the caller is left with; the
first is the returned width, `none` standing for `np.nan`. -/
def get_width_half_height_full (time spike_shape : List ℚ) : Option ℚ × List ℚ :=
  let tp := get_troughpeak time spike_shape
  let troughind := time.findIdx (fun x => decide (x = tp.1))
  let s1 := spike_shape.map (fun x => x / (-(listMin spike_shape)))
  let s2 := s1.map (fun x => x + 1 / 2)
  let zc := zeroCrossings s2
  let is := zc.filter (fun i => decide (i < troughind))
  let js := zc.filter (fun j => decide (troughind < j))
  let width : Option ℚ :=
    if is ≠ [] ∧ js ≠ [] then
      some (time.getD (js.headD 0) 0 - time.getD (is.getLastD 0) 0)
    else none
  (width, s1)

/-- The value `get_width_half_height` returns to its caller. -/
def get_width_half_height (time spike_shape : List ℚ) : Option ℚ :=
  (get_width_half_height_full time spike_shape).1

/-- The claim-side normalisation of `get_width_half_height`: the sign
changes of the spike shape after dividing by the trough depth and
offsetting by 0.5. -/
def normCrossings (s : List ℚ) : List ℕ :=
  zeroCrossings (s.map (fun x => x / (-(listMin s)) + 1 / 2))

/-- A block of spike-sorting results, as the external loaders present it:
`nchans` channels on the probe, the raw contents of the cluster's
`.mean_waveforms` file, the contents of its `.mean_masks` file, and the
probe coordinates `[geometry[ch] for ch in channels]`. -/
structure Block where
  nchans : ℕ
  mean_waveform_flat : List ℚ
  mean_masks : List ℚ
  coords : List (ℚ × ℚ)

/-- Embedding of `mean_masks_w(block_path, cluster)` from `clust.py`: the mean-mask
vector read from the `.mean_masks` file. -/
def mean_masks_w (b : Block) : List ℚ :=
  b.mean_masks

/-- Embedding of `max_masks_w(block_path, cluster)` from `clust.py`: `w == w.max()`,
a boolean vector placing all weight on the maximal-mask channel(s). -/
def max_masks_w (b : Block) : List Bool :=
  let w := mean_masks_w b
  w.map (fun x => decide (x = listMax w))

/-- Model of numpy's implicit bool-to-float cast in `np.dot`. -/
def boolToQ (b : Bool) : ℚ :=
  if b then 1 else 0

/-- Model of `np.dot(w, coords)` for a weight vector against an `n × 2` coordinate
array: the pair of weighted coordinate sums. -/
def npdot2 (w : List ℚ) (coords : List (ℚ × ℚ)) : ℚ × ℚ :=
  ((List.zipWith (fun a p => a * p.1) w coords).sum,
   (List.zipWith (fun a p => a * p.2) w coords).sum)

/-- Embedding of `get_cluster_coords(block_path, cluster, weight_func)` from `clust.py`:
`np.dot(w, coords) / w.sum()` where `w` comes from `weight_func`
(default `max_masks_w`, whose boolean output numpy casts to 0/1). -/
def get_cluster_coords (b : Block) (weight_func : Option (Block → List ℚ)) :
    ℚ × ℚ :=
  let wf := weight_func.getD (fun blk => (max_masks_w blk).map boolToQ)
  let w := wf b
  let d := npdot2 w b.coords
  (d.1 / w.sum, d.2 / w.sum)

/-- The maximal-mask channels of a block: the (mask, coordinate) pairs
whose mask value is the maximum.  This is the claim-side notion that the
default-weighted `get_cluster_coords` is compared against. -/
def maxSel (b : Block) : List (ℚ × (ℚ × ℚ)) :=
  (b.mean_masks.zip b.coords).filter
    (fun p => decide (p.1 = listMax b.mean_masks))

/-- Model of `np.fromfile(...).reshape((-1, n))`: cut a flat array into rows of
length `n` (empty on `n = 0`, which numpy rejects). -/
def toRows (n : ℕ) (l : List ℚ) : List (List ℚ) :=
  if h : n = 0 ∨ l = [] then []
  else l.take n :: toRows n (l.drop n)
termination_by l.length
decreasing_by
  simp only [List.length_drop]
  have h1 : n ≠ 0 := fun hn => h (Or.inl hn)
  have h2 : l ≠ [] := fun hl => h (Or.inr hl)
  have := List.length_pos.mpr h2
  omega

/-- Embedding of `get_mean_waveform_array(block_path, cluster)` from `clust.py`: the
`.mean_waveforms` file reshaped to `(time_samples, channels)`. -/
def get_mean_waveform_array (b : Block) : List (List ℚ) :=
  toRows b.nchans b.mean_waveform_flat

/-- Embedding of `get_spike_exemplar(block_path, cluster)` from `clust.py`:
`arr[:, mean_masks_arr.argmax()]`, the column of the mean-waveform array on
the channel with the (first) largest mean-mask value. -/
def get_spike_exemplar (b : Block) : List ℚ :=
  (get_mean_waveform_array b).map (fun row => row.getD (argmaxIdx b.mean_masks) 0)

/-- Embedding of `get_wide_narrow(block_path, cluster_list, thresh)` from `clust.py`,
with the per-cluster spike width supplied by the loader-backed `get_width`
as an abstract function: the loop appending each cluster to `wide` when
its width is `>= thresh` and to `narrow` otherwise. -/
def get_wide_narrow {α : Type} (width : α → ℚ) (cluster_list : List α)
    (thresh : ℚ) : List α × List α :=
  cluster_list.foldl
    (fun wn c => if width c ≥ thresh then (wn.1 ++ [c], wn.2) else (wn.1, wn.2 ++ [c]))
    ([], [])

/-- One row of the spike table handed to `compute_cluster_waveforms_fast`
(columns `cluster`, `recording`, `time_samples`). -/
structure SpikeRow where
  cluster : ℕ
  recording : ℕ
  time_samples : ℤ
deriving DecidableEq

/-- The keys a pandas `groupby` iterates over: distinct values in sorted
order. -/
def groupKeys (l : List ℕ) : List ℕ :=
  l.dedup.mergeSort (fun a b => decide (a ≤ b))

/-- The window length `wave_length = before + 1 + after`. -/
def waveLen (before after : ℕ) : ℕ :=
  before + 1 + after

/-- The surviving window starts of one `(recording, cluster)` group:
`starts = time_samples - before`, then `starts[starts > 0]`, then
`starts[starts + wave_length < recording_data.shape[0]]`. -/
def startsOf (recLen : ℤ) (before after : ℕ) (group : List SpikeRow) : List ℤ :=
  ((group.map (fun s => s.time_samples - (before : ℤ))).filter
      (fun st => decide (0 < st))).filter
    (fun st => decide (st + (waveLen before after : ℤ) < recLen))

/-- The sample `recording_data[st + i, ch]` (out-of-range indices default to 0; the
filters in `startsOf` keep all accesses in range). -/
def cellAt (data : ℕ → List (List ℚ)) (r : ℕ) (st : ℤ) (i ch : ℕ) : ℚ :=
  ((data r).getD (st + (i : ℤ)).toNat []).getD ch 0

/-- Accumulator state of `compute_cluster_waveforms_fast`: the `counts`
vector and the `waveforms` array, both indexed by cluster id (the Python
code indexes through `cluster_map`, an order-isomorphism from cluster ids
to `0..num_clusters-1`; we index by the id itself). -/
structure CWState where
  counts : ℕ → ℕ
  waveforms : ℕ → ℕ → ℕ → ℚ

/-- The body of the inner loop of `compute_cluster_waveforms_fast` for one
`(recording, cluster)` group: `counts[c] += len(starts)` and, for each
`i < wave_length`,
`waveforms[c, i, :] += np.sum(recording_data[starts + i, :], axis=0)`. -/
def cwf_step (data : ℕ → List (List ℚ)) (before after : ℕ) (r : ℕ)
    (recGroup : List SpikeRow) (st : CWState) (c : ℕ) : CWState :=
  let grp := recGroup.filter (fun s => decide (s.cluster = c))
  let starts := startsOf ((data r).length : ℤ) before after grp
  { counts := fun c' => if c' = c then st.counts c' + starts.length else st.counts c'
    waveforms := fun c' i ch =>
      if c' = c ∧ i < waveLen before after then
        st.waveforms c' i ch + (starts.map (fun s0 => cellAt data r s0 i ch)).sum
      else st.waveforms c' i ch }

/-- The accumulation phase of `compute_cluster_waveforms_fast`: iterate
over the recording groups of the spike table and, within each, over its
cluster groups, as the two nested `groupby` loops do. -/
def cwf_state (spikes : List SpikeRow) (data : ℕ → List (List ℚ))
    (before after : ℕ) : CWState :=
  (groupKeys (spikes.map (fun s => s.recording))).foldl
    (fun st r =>
      let recGroup := spikes.filter (fun s => decide (s.recording = r))
      (groupKeys (recGroup.map (fun s => s.cluster))).foldl
        (cwf_step data before after r recGroup) st)
    ⟨fun _ => 0, fun _ _ _ => 0⟩

/-- numpy float division with the semantics that matter here: dividing by a
zero count yields a non-finite value (`nan`/`inf`), modelled as `none`. -/
def divNaN (a : ℚ) (b : ℕ) : Option ℚ :=
  if b = 0 then none else some (a / (b : ℚ))

/-- Embedding of `compute_cluster_waveforms_fast(block_path, spikes, before, after)`
from `clust.py`: the accumulated per-cluster sums divided entrywise by the
per-cluster counts (`waveforms /= counts.reshape(...)`, unguarded). -/
def compute_cluster_waveforms_fast (spikes : List SpikeRow)
    (data : ℕ → List (List ℚ)) (before after : ℕ) : ℕ → ℕ → ℕ → Option ℚ :=
  fun c i ch =>
    let st := cwf_state spikes data before after
    divNaN (st.waveforms c i ch) (st.counts c)

/-- The survival condition of a spike in `compute_cluster_waveforms_fast`,
spelled directly: its start `time_samples - before` is strictly positive
and the window of length `wave_length` ends strictly inside the recording. -/
def survives (data : ℕ → List (List ℚ)) (before after : ℕ) (s : SpikeRow) : Bool :=
  decide (0 < s.time_samples - (before : ℤ)) &&
    decide (s.time_samples - (before : ℤ) + (waveLen before after : ℤ) <
      ((data s.recording).length : ℤ))

/-- The surviving spikes of cluster `c`, in table order. -/
def survivors (spikes : List SpikeRow) (data : ℕ → List (List ℚ))
    (before after : ℕ) (c : ℕ) : List SpikeRow :=
  (spikes.filter (fun s => decide (s.cluster = c))).filter (survives data before after)

/-- Sample `i`, channel `ch` of the raw-data window of spike `s`, aligned
at `time_samples - before`. -/
def windowAt (data : ℕ → List (List ℚ)) (before : ℕ) (s : SpikeRow)
    (i ch : ℕ) : ℚ :=
  cellAt data s.recording (s.time_samples - (before : ℤ)) i ch

/-- Embedding of `gaussian_psth_func(times, spike_data, sigma)` from `rasters.py`:
starting from `np.zeros(len(times))`, add
`np.exp(-1.0*np.square(times-spike_time)/(2*sigma**2))` for each spike. -/
noncomputable def gaussian_psth_func (times : List ℝ) (spike_data : List ℝ)
    (sigma : ℝ) : List ℝ :=
  spike_data.foldl
    (fun output spike_time =>
      List.zipWith (· + ·) output
        (times.map (fun t => Real.exp (-1 * (t - spike_time) ^ 2 / (2 * sigma ^ 2)))))
    (times.map (fun _ => (0 : ℝ)))

end Ephys

namespace Ephys

/-! ### Basic facts about the numpy primitives -/

theorem le_foldl_max (a : ℚ) (l : List ℚ) : a ≤ l.foldl max a := by
  induction l generalizing a with
  | nil => exact le_refl a
  | cons x xs ih => exact le_trans (le_max_left a x) (ih (max a x))

theorem mem_le_foldl_max {x : ℚ} {l : List ℚ} (a : ℚ) (hx : x ∈ l) :
    x ≤ l.foldl max a := by
  induction l generalizing a with
  | nil => cases hx
  | cons y ys ih =>
    rcases List.mem_cons.mp hx with h | h
    · subst h
      exact le_trans (le_max_right a x) (le_foldl_max (max a x) ys)
    · exact ih (max a y) h

theorem foldl_max_mem (a : ℚ) (l : List ℚ) :
    l.foldl max a = a ∨ l.foldl max a ∈ l := by
  induction l generalizing a with
  | nil => exact Or.inl rfl
  | cons x xs ih =>
    rcases ih (max a x) with h | h
    · rcases max_choice a x with hm | hm
      · exact Or.inl (h.trans hm)
      · exact Or.inr (by rw [List.foldl_cons, h, hm]; exact List.mem_cons_self x xs)
    · exact Or.inr (List.mem_cons_of_mem x h)

theorem listMax_mem {l : List ℚ} (h : l ≠ []) : listMax l ∈ l := by
  cases l with
  | nil => exact absurd rfl h
  | cons x xs =>
    rcases foldl_max_mem x xs with h' | h'
    · rw [listMax, h']; exact List.mem_cons_self x xs
    · exact List.mem_cons_of_mem x h'

theorem le_listMax {x : ℚ} {l : List ℚ} (hx : x ∈ l) : x ≤ listMax l := by
  cases l with
  | nil => cases hx
  | cons y ys =>
    rcases List.mem_cons.mp hx with h | h
    · subst h; exact le_foldl_max x ys
    · exact mem_le_foldl_max y h

theorem le_foldl_min (a : ℚ) (l : List ℚ) : l.foldl min a ≤ a := by
  induction l generalizing a with
  | nil => exact le_refl a
  | cons x xs ih => exact le_trans (ih (min a x)) (min_le_left a x)

theorem foldl_min_le_mem {x : ℚ} {l : List ℚ} (a : ℚ) (hx : x ∈ l) :
    l.foldl min a ≤ x := by
  induction l generalizing a with
  | nil => cases hx
  | cons y ys ih =>
    rcases List.mem_cons.mp hx with h | h
    · subst h
      exact le_trans (le_foldl_min (min a x) ys) (min_le_right a x)
    · exact ih (min a y) h

theorem foldl_min_mem (a : ℚ) (l : List ℚ) :
    l.foldl min a = a ∨ l.foldl min a ∈ l := by
  induction l generalizing a with
  | nil => exact Or.inl rfl
  | cons x xs ih =>
    rcases ih (min a x) with h | h
    · rcases min_choice a x with hm | hm
      · exact Or.inl (h.trans hm)
      · exact Or.inr (by rw [List.foldl_cons, h, hm]; exact List.mem_cons_self x xs)
    · exact Or.inr (List.mem_cons_of_mem x h)

theorem listMin_mem {l : List ℚ} (h : l ≠ []) : listMin l ∈ l := by
  cases l with
  | nil => exact absurd rfl h
  | cons x xs =>
    rcases foldl_min_mem x xs with h' | h'
    · rw [listMin, h']; exact List.mem_cons_self x xs
    · exact List.mem_cons_of_mem x h'

theorem listMin_le {x : ℚ} {l : List ℚ} (hx : x ∈ l) : listMin l ≤ x := by
  cases l with
  | nil => cases hx
  | cons y ys =>
    rcases List.mem_cons.mp hx with h | h
    · subst h; exact le_foldl_min x ys
    · exact foldl_min_le_mem y h

/-- The index `argmaxIdx` is in range on a non-empty list. -/
theorem argmaxIdx_lt_length {l : List ℚ} (h : l ≠ []) : argmaxIdx l < l.length := by
  apply List.findIdx_lt_length_of_exists
  exact ⟨listMax l, listMax_mem h, by simp⟩

/-- The index `argminIdx` is in range on a non-empty list. -/
theorem argminIdx_lt_length {l : List ℚ} (h : l ≠ []) : argminIdx l < l.length := by
  apply List.findIdx_lt_length_of_exists
  exact ⟨listMin l, listMin_mem h, by simp⟩

/-- The element at `argmaxIdx` is the maximum. -/
theorem getElem_argmaxIdx {l : List ℚ} (h : argmaxIdx l < l.length) :
    l[argmaxIdx l] = listMax l := by
  have := @List.findIdx_getElem ℚ (fun x => decide (x = listMax l)) l h
  simpa using this

/-- The element at `argminIdx` is the minimum. -/
theorem getElem_argminIdx {l : List ℚ} (h : argminIdx l < l.length) :
    l[argminIdx l] = listMin l := by
  have := @List.findIdx_getElem ℚ (fun x => decide (x = listMin l)) l h
  simpa using this

/-- Entries strictly before `argmaxIdx` are strictly below the maximum. -/
theorem getElem_lt_of_lt_argmaxIdx {l : List ℚ} {j : ℕ} (hj : j < l.length)
    (h : j < argmaxIdx l) : l[j] < listMax l := by
  have hne := @List.not_of_lt_findIdx ℚ (fun x => decide (x = listMax l)) l j h
  have hle : l[j] ≤ listMax l := le_listMax (List.getElem_mem hj)
  simp only [decide_eq_true_eq] at hne
  exact lt_of_le_of_ne hle (by simpa using hne)

theorem getD_drop (s : List ℚ) (i k : ℕ) :
    (s.drop i).getD k 0 = s.getD (i + k) 0 := by
  simp [List.getD_eq_getElem?_getD, List.getElem?_drop]

theorem sorted_le_getD {time : List ℚ} (hs : List.Sorted (· ≤ ·) time) {i j : ℕ}
    (hij : i ≤ j) (hj : j < time.length) : time.getD i 0 ≤ time.getD j 0 := by
  rcases Nat.eq_or_lt_of_le hij with rfl | hlt
  · exact le_refl _
  · have hi : i < time.length := lt_trans hlt hj
    rw [List.getD_eq_getElem _ _ hi, List.getD_eq_getElem _ _ hj]
    exact List.pairwise_iff_getElem.mp hs i j hi hj hlt

/-! ### Facts about `arange` -/

theorem arange_length (stop step : ℚ) :
    (arange stop step).length = ⌈stop / step⌉.toNat := by
  unfold arange
  rw [List.length_map, List.length_range]

theorem arange_getD {stop step : ℚ} {k : ℕ}
    (hk : k < (arange stop step).length) :
    (arange stop step).getD k 0 = (k : ℚ) * step := by
  rw [List.getD_eq_getElem _ _ hk]
  unfold arange
  rw [List.getElem_map, List.getElem_range]

theorem arange_ne_nil {stop step : ℚ} (h1 : 0 < stop) (h2 : 0 < step) :
    arange stop step ≠ [] := by
  have hpos : 0 < stop / step := div_pos h1 h2
  have hc : 0 < ⌈stop / step⌉ := Int.ceil_pos.mpr hpos
  unfold arange
  rw [Ne, List.map_eq_nil_iff, List.range_eq_nil]
  omega

theorem arange_sorted {stop step : ℚ} (h : 0 ≤ step) :
    List.Sorted (· ≤ ·) (arange stop step) := by
  rw [List.Sorted, List.pairwise_iff_getElem]
  intro i j hi hj hij
  unfold arange
  rw [List.getElem_map, List.getElem_map, List.getElem_range, List.getElem_range]
  exact mul_le_mul_of_nonneg_right (by exact_mod_cast le_of_lt hij) h

theorem arange_sorted_lt {stop step : ℚ} (h : 0 < step) :
    List.Sorted (· < ·) (arange stop step) := by
  rw [List.Sorted, List.pairwise_iff_getElem]
  intro i j hi hj hij
  unfold arange
  rw [List.getElem_map, List.getElem_map, List.getElem_range, List.getElem_range]
  exact mul_lt_mul_of_pos_right (by exact_mod_cast hij) h

theorem arange_getD_lt_stop {stop step : ℚ} (h : 0 < step) {k : ℕ}
    (hk : k < (arange stop step).length) :
    (arange stop step).getD k 0 < stop := by
  rw [arange_getD hk]
  rw [arange_length] at hk
  have hkc : (k : ℤ) < ⌈stop / step⌉ := by omega
  have hklt : (k : ℚ) < stop / step := by
    have h1 : ((k : ℤ) : ℚ) ≤ (⌈stop / step⌉ : ℚ) - 1 := by
      have : (k : ℤ) ≤ ⌈stop / step⌉ - 1 := by omega
      push_cast
      exact_mod_cast this
    have h2 : (⌈stop / step⌉ : ℚ) < stop / step + 1 := Int.ceil_lt_add_one _
    push_cast at h1
    linarith
  calc (k : ℚ) * step < stop / step * step := mul_lt_mul_of_pos_right hklt h
    _ = stop := div_mul_cancel₀ stop (ne_of_gt h)

theorem stop_le_arange_length_mul {stop step : ℚ} (h1 : 0 < stop) (h2 : 0 < step) :
    stop ≤ ((arange stop step).length : ℚ) * step := by
  rw [arange_length]
  have hpos : 0 < stop / step := div_pos h1 h2
  have hc : 0 < ⌈stop / step⌉ := Int.ceil_pos.mpr hpos
  have hle : stop / step ≤ (⌈stop / step⌉ : ℚ) := Int.le_ceil _
  have heq : ((⌈stop / step⌉.toNat : ℕ) : ℚ) = (⌈stop / step⌉ : ℚ) := by
    have := Int.toNat_of_nonneg (le_of_lt hc)
    exact_mod_cast congrArg (fun z : ℤ => (z : ℚ)) this
  have hfin : stop / step ≤ ((⌈stop / step⌉.toNat : ℕ) : ℚ) := heq ▸ hle
  calc stop = stop / step * step := (div_mul_cancel₀ stop (ne_of_gt h2)).symm
    _ ≤ ((⌈stop / step⌉.toNat : ℕ) : ℚ) * step :=
        mul_le_mul_of_nonneg_right hfin (le_of_lt h2)

/-! ### Trough and peak (C1) -/

theorem get_troughpeak_spec (time s : List ℚ) (hs : s ≠ []) :
    ∃ ti pi : ℕ, ti < s.length ∧ pi < s.length ∧ ti ≤ pi ∧
      get_troughpeak time s = (time.getD ti 0, time.getD pi 0) ∧
      s.getD ti 0 = listMin s ∧ s.getD pi 0 = listMax (s.drop ti) := by
  have hti : argminIdx s < s.length := argminIdx_lt_length hs
  have hdrop : s.drop (argminIdx s) ≠ [] := by
    rw [Ne, List.drop_eq_nil_iff]
    omega
  have hak : argmaxIdx (s.drop (argminIdx s)) < (s.drop (argminIdx s)).length :=
    argmaxIdx_lt_length hdrop
  rw [List.length_drop] at hak
  refine ⟨argminIdx s, argmaxIdx (s.drop (argminIdx s)) + argminIdx s,
    hti, by omega, Nat.le_add_left _ _, rfl, ?_, ?_⟩
  · rw [List.getD_eq_getElem _ _ hti]
    exact getElem_argminIdx hti
  · rw [Nat.add_comm, ← getD_drop]
    have hak' : argmaxIdx (s.drop (argminIdx s)) < (s.drop (argminIdx s)).length :=
      argmaxIdx_lt_length hdrop
    rw [List.getD_eq_getElem _ _ hak']
    exact getElem_argmaxIdx hak'

/-- C1: on a non-empty spike shape (with a time axis of matching length,
sorted increasingly), `get_troughpeak` returns the time of the global
minimum and the time of the maximum over the samples at or after the
trough index, so the peak time is at least the trough time; consequently
`get_width` — peak minus trough of the upsampled exemplar — is
non-negative for every exemplar, sampling rate and spline. -/
theorem C1_troughpeak_and_width_nonneg :
    (∀ time s : List ℚ, s ≠ [] → List.Sorted (· ≤ ·) time →
      time.length = s.length →
      ∃ ti pi : ℕ, ti < s.length ∧ pi < s.length ∧ ti ≤ pi ∧
        get_troughpeak time s = (time.getD ti 0, time.getD pi 0) ∧
        s.getD ti 0 = listMin s ∧ s.getD pi 0 = listMax (s.drop ti) ∧
        (get_troughpeak time s).1 ≤ (get_troughpeak time s).2) ∧
    (∀ (spl : ℚ → ℚ) (exemplar : List ℚ) (fs new_fs : ℚ), exemplar ≠ [] →
      0 < fs → 0 < new_fs → 0 ≤ get_width spl exemplar fs new_fs) := by
  have main : ∀ time s : List ℚ, s ≠ [] → List.Sorted (· ≤ ·) time →
      time.length = s.length →
      ∃ ti pi : ℕ, ti < s.length ∧ pi < s.length ∧ ti ≤ pi ∧
        get_troughpeak time s = (time.getD ti 0, time.getD pi 0) ∧
        s.getD ti 0 = listMin s ∧ s.getD pi 0 = listMax (s.drop ti) ∧
        (get_troughpeak time s).1 ≤ (get_troughpeak time s).2 := by
    intro time s hs hsort hlen
    obtain ⟨ti, pi, h1, h2, h3, h4, h5, h6⟩ := get_troughpeak_spec time s hs
    refine ⟨ti, pi, h1, h2, h3, h4, h5, h6, ?_⟩
    rw [h4]
    exact sorted_le_getD hsort h3 (by omega)
  refine ⟨main, ?_⟩
  intro spl exemplar fs new_fs hex hfs hnew
  have hstop : 0 < (exemplar.length : ℚ) / fs := by
    apply div_pos _ hfs
    have : 0 < exemplar.length := List.length_pos.mpr hex
    exact_mod_cast this
  have hstep : 0 < 1 / new_fs := by positivity
  set ts := arange ((exemplar.length : ℚ) / fs) (1 / new_fs) with hts
  have hne : ts ≠ [] := arange_ne_nil hstop hstep
  have hmapne : ts.map spl ≠ [] := by
    simpa [List.map_eq_nil_iff] using hne
  obtain ⟨ti, pi, _, _, _, h4, _, _, h7⟩ :=
    main ts (ts.map spl) hmapne (arange_sorted (le_of_lt hstep))
      (by simp)
  have : get_width spl exemplar fs new_fs =
      (get_troughpeak ts (ts.map spl)).2 - (get_troughpeak ts (ts.map spl)).1 := rfl
  rw [this]
  linarith

/-- Witness for C1 at a concrete spike shape. -/
theorem C1_troughpeak_and_width_nonneg_witness :
    (∃ ti pi : ℕ, ti < ([1, -2, 1] : List ℚ).length ∧
        pi < ([1, -2, 1] : List ℚ).length ∧ ti ≤ pi ∧
        get_troughpeak [0, 1, 2] [1, -2, 1] =
          (([0, 1, 2] : List ℚ).getD ti 0, ([0, 1, 2] : List ℚ).getD pi 0) ∧
        ([1, -2, 1] : List ℚ).getD ti 0 = listMin [1, -2, 1] ∧
        ([1, -2, 1] : List ℚ).getD pi 0 = listMax (([1, -2, 1] : List ℚ).drop ti) ∧
        (get_troughpeak [0, 1, 2] [1, -2, 1]).1 ≤
          (get_troughpeak [0, 1, 2] [1, -2, 1]).2) ∧
    0 ≤ get_width (fun x => x) [1, -2, 1] 1 2 :=
  ⟨C1_troughpeak_and_width_nonneg.1 [0, 1, 2] [1, -2, 1] (by decide)
      (by decide) (by decide),
   C1_troughpeak_and_width_nonneg.2 (fun x => x) [1, -2, 1] 1 2 (by decide)
      (by decide) (by decide)⟩

/-! ### Mean waveform array and spike exemplar (C2) -/

theorem toRows_row_length_aux {n : ℕ} (hn : 0 < n) :
    ∀ (m : ℕ) (l : List ℚ), l.length ≤ m → n ∣ l.length →
      ∀ row ∈ toRows n l, row.length = n := by
  intro m
  induction m with
  | zero =>
    intro l hl _ row hrow
    have : l = [] := List.eq_nil_of_length_eq_zero (Nat.le_zero.mp hl)
    subst this
    rw [toRows] at hrow
    simp at hrow
  | succ m ih =>
    intro l hl hdvd row hrow
    rw [toRows] at hrow
    by_cases hcase : n = 0 ∨ l = []
    · rw [dif_pos hcase] at hrow
      cases hrow
    · rw [dif_neg hcase] at hrow
      push_neg at hcase
      have hlpos : 0 < l.length := List.length_pos.mpr hcase.2
      have hnle : n ≤ l.length := Nat.le_of_dvd hlpos hdvd
      rcases List.mem_cons.mp hrow with h | h
      · subst h
        rw [List.length_take]
        omega
      · have hdvd' : n ∣ (l.drop n).length := by
          rw [List.length_drop]
          exact (Nat.dvd_sub' hdvd dvd_rfl)
        have hle' : (l.drop n).length ≤ m := by
          rw [List.length_drop]
          omega
        exact ih (l.drop n) hle' hdvd' row h

theorem toRows_row_length {n : ℕ} (hn : 0 < n) {l : List ℚ}
    (hdvd : n ∣ l.length) : ∀ row ∈ toRows n l, row.length = n :=
  toRows_row_length_aux hn l.length l (le_refl _) hdvd

/-- C2: `get_spike_exemplar` is exactly the column of the mean-waveform
array (whose rows all have length `nchans`) at the index of the first
maximal entry of the cluster's mean-mask vector. -/
theorem C2_spike_exemplar (b : Block) (hmask : b.mean_masks ≠ [])
    (hn : 0 < b.nchans) (hdvd : b.nchans ∣ b.mean_waveform_flat.length) :
    ∃ k : ℕ, k < b.mean_masks.length ∧
      b.mean_masks.getD k 0 = listMax b.mean_masks ∧
      (∀ j, j < k → b.mean_masks.getD j 0 < listMax b.mean_masks) ∧
      get_spike_exemplar b =
        (get_mean_waveform_array b).map (fun row => row.getD k 0) ∧
      (∀ row ∈ get_mean_waveform_array b, row.length = b.nchans) := by
  have hk : argmaxIdx b.mean_masks < b.mean_masks.length :=
    argmaxIdx_lt_length hmask
  refine ⟨argmaxIdx b.mean_masks, hk, ?_, ?_, rfl, ?_⟩
  · rw [List.getD_eq_getElem _ _ hk]
    exact getElem_argmaxIdx hk
  · intro j hj
    have hjlen : j < b.mean_masks.length := lt_trans hj hk
    rw [List.getD_eq_getElem _ _ hjlen]
    exact getElem_lt_of_lt_argmaxIdx hjlen hj
  · exact toRows_row_length hn hdvd

/-- Witness for C2 on a concrete two-channel block. -/
theorem C2_spike_exemplar_witness :
    ∃ k : ℕ, k < (Block.mk 2 [1, 2, 3, 4] [0, 5] []).mean_masks.length ∧
      (Block.mk 2 [1, 2, 3, 4] [0, 5] []).mean_masks.getD k 0 =
        listMax (Block.mk 2 [1, 2, 3, 4] [0, 5] []).mean_masks ∧
      (∀ j, j < k → (Block.mk 2 [1, 2, 3, 4] [0, 5] []).mean_masks.getD j 0 <
        listMax (Block.mk 2 [1, 2, 3, 4] [0, 5] []).mean_masks) ∧
      get_spike_exemplar (Block.mk 2 [1, 2, 3, 4] [0, 5] []) =
        (get_mean_waveform_array (Block.mk 2 [1, 2, 3, 4] [0, 5] [])).map
          (fun row => row.getD k 0) ∧
      (∀ row ∈ get_mean_waveform_array (Block.mk 2 [1, 2, 3, 4] [0, 5] []),
        row.length = (Block.mk 2 [1, 2, 3, 4] [0, 5] []).nchans) :=
  C2_spike_exemplar (Block.mk 2 [1, 2, 3, 4] [0, 5] []) (by decide) (by decide)
    (by decide)

/-! ### Mask weights and cluster coordinates (C3) -/

theorem zipWith_indicator_sum_fst (t : ℚ) :
    ∀ (m : List ℚ) (c : List (ℚ × ℚ)), m.length = c.length →
      (List.zipWith (fun a p => a * p.1)
          (m.map (fun x => boolToQ (decide (x = t)))) c).sum =
        (((m.zip c).filter (fun p => decide (p.1 = t))).map
          (fun p => p.2.1)).sum := by
  intro m
  induction m with
  | nil => intro c _; simp
  | cons x xs ih =>
    intro c h
    cases c with
    | nil => simp at h
    | cons p ps =>
      have h' : xs.length = ps.length := by simpa using h
      by_cases hx : x = t
      · have hind : boolToQ (decide (x = t)) = 1 := by simp [boolToQ, hx]
        rw [List.map_cons, List.zipWith_cons_cons, List.sum_cons, hind, one_mul,
          List.zip_cons_cons,
          List.filter_cons_of_pos (by simpa using hx),
          List.map_cons, List.sum_cons, ih ps h']
      · have hind : boolToQ (decide (x = t)) = 0 := by simp [boolToQ, hx]
        rw [List.map_cons, List.zipWith_cons_cons, List.sum_cons, hind, zero_mul,
          zero_add, List.zip_cons_cons,
          List.filter_cons_of_neg (by simpa using hx), ih ps h']

theorem zipWith_indicator_sum_snd (t : ℚ) :
    ∀ (m : List ℚ) (c : List (ℚ × ℚ)), m.length = c.length →
      (List.zipWith (fun a p => a * p.2)
          (m.map (fun x => boolToQ (decide (x = t)))) c).sum =
        (((m.zip c).filter (fun p => decide (p.1 = t))).map
          (fun p => p.2.2)).sum := by
  intro m
  induction m with
  | nil => intro c _; simp
  | cons x xs ih =>
    intro c h
    cases c with
    | nil => simp at h
    | cons p ps =>
      have h' : xs.length = ps.length := by simpa using h
      by_cases hx : x = t
      · have hind : boolToQ (decide (x = t)) = 1 := by simp [boolToQ, hx]
        rw [List.map_cons, List.zipWith_cons_cons, List.sum_cons, hind, one_mul,
          List.zip_cons_cons,
          List.filter_cons_of_pos (by simpa using hx),
          List.map_cons, List.sum_cons, ih ps h']
      · have hind : boolToQ (decide (x = t)) = 0 := by simp [boolToQ, hx]
        rw [List.map_cons, List.zipWith_cons_cons, List.sum_cons, hind, zero_mul,
          zero_add, List.zip_cons_cons,
          List.filter_cons_of_neg (by simpa using hx), ih ps h']

theorem indicator_sum_count (t : ℚ) :
    ∀ (m : List ℚ) (c : List (ℚ × ℚ)), m.length = c.length →
      (m.map (fun x => boolToQ (decide (x = t)))).sum =
        ((((m.zip c).filter (fun p => decide (p.1 = t))).length : ℕ) : ℚ) := by
  intro m
  induction m with
  | nil => intro c _; simp
  | cons x xs ih =>
    intro c h
    cases c with
    | nil => simp at h
    | cons p ps =>
      have h' : xs.length = ps.length := by simpa using h
      by_cases hx : x = t
      · have hind : boolToQ (decide (x = t)) = 1 := by simp [boolToQ, hx]
        rw [List.map_cons, List.sum_cons, hind, List.zip_cons_cons,
          List.filter_cons_of_pos (by simpa using hx), List.length_cons,
          ih ps h']
        push_cast
        ring
      · have hind : boolToQ (decide (x = t)) = 0 := by simp [boolToQ, hx]
        rw [List.map_cons, List.sum_cons, hind, zero_add, List.zip_cons_cons,
          List.filter_cons_of_neg (by simpa using hx), ih ps h']

/-- C3: `max_masks_w` is a boolean vector that is true exactly at the
positions holding the maximal mask value, and `get_cluster_coords` with
the default weight function is the arithmetic mean of the probe
coordinates of exactly those maximal-mask channels. -/
theorem C3_max_masks_and_centroid (b : Block) (hmask : b.mean_masks ≠ [])
    (hlen : b.mean_masks.length = b.coords.length) :
    (∀ i, i < b.mean_masks.length →
      ((max_masks_w b).getD i false = true ↔
        b.mean_masks.getD i 0 = listMax b.mean_masks)) ∧
    (max_masks_w b).length = b.mean_masks.length ∧
    (maxSel b).length ≠ 0 ∧
    get_cluster_coords b none =
      (((maxSel b).map (fun p => p.2.1)).sum / ((maxSel b).length : ℚ),
       ((maxSel b).map (fun p => p.2.2)).sum / ((maxSel b).length : ℚ)) := by
  refine ⟨?_, by simp [max_masks_w, mean_masks_w], ?_, ?_⟩
  · intro i hi
    have hmap : (max_masks_w b).length = b.mean_masks.length := by
      simp [max_masks_w, mean_masks_w]
    rw [List.getD_eq_getElem _ _ (by omega : i < (max_masks_w b).length),
      List.getD_eq_getElem _ _ hi]
    simp [max_masks_w, mean_masks_w]
  · obtain ⟨i, hi, hival⟩ := List.getElem_of_mem (listMax_mem hmask)
    have hic : i < b.coords.length := by omega
    have hzi : i < (b.mean_masks.zip b.coords).length := by
      rw [List.length_zip]
      omega
    have hpair : (b.mean_masks.zip b.coords)[i] =
        (b.mean_masks[i], b.coords[i]) := List.getElem_zip
    have hmem : (b.mean_masks[i], b.coords[i]) ∈ maxSel b := by
      apply List.mem_filter.mpr
      constructor
      · rw [← hpair]
        exact List.getElem_mem hzi
      · simpa using hival
    have := List.ne_nil_of_mem hmem
    simpa [List.length_eq_zero] using this
  · show ((npdot2 ((max_masks_w b).map boolToQ) b.coords).1 /
        ((max_masks_w b).map boolToQ).sum,
      (npdot2 ((max_masks_w b).map boolToQ) b.coords).2 /
        ((max_masks_w b).map boolToQ).sum) = _
    have hw : (max_masks_w b).map boolToQ =
        b.mean_masks.map (fun x => boolToQ (decide (x = listMax b.mean_masks))) := by
      simp [max_masks_w, mean_masks_w, List.map_map]
    rw [hw]
    unfold maxSel
    rw [Prod.mk.injEq]
    constructor
    · show (List.zipWith (fun a p => a * p.1) _ b.coords).sum / _ = _
      rw [zipWith_indicator_sum_fst (listMax b.mean_masks) b.mean_masks
        b.coords hlen]
      rw [indicator_sum_count (listMax b.mean_masks) b.mean_masks b.coords hlen]
    · show (List.zipWith (fun a p => a * p.2) _ b.coords).sum / _ = _
      rw [zipWith_indicator_sum_snd (listMax b.mean_masks) b.mean_masks
        b.coords hlen]
      rw [indicator_sum_count (listMax b.mean_masks) b.mean_masks b.coords hlen]

/-- Witness for C3: the default-weighted coordinates of a concrete block
with a tied maximal mask evaluate to the mean of the tied channels. -/
theorem C3_max_masks_and_centroid_witness :
    get_cluster_coords (Block.mk 0 [] [3, 7, 7] [(0, 0), (2, 4), (6, 8)]) none =
      (4, 6) := by
  have h := C3_max_masks_and_centroid
    (Block.mk 0 [] [3, 7, 7] [(0, 0), (2, 4), (6, 8)]) (by decide) (by decide)
  rw [h.2.2.2]
  have hsel : maxSel (Block.mk 0 [] [3, 7, 7] [(0, 0), (2, 4), (6, 8)]) =
      [(7, (2, 4)), (7, (6, 8))] := by decide
  rw [hsel]
  norm_num

/-! ### The upsampling time grid (C4) -/

/-- C4: `upsample_spike` returns two arrays of equal length; its time grid
is `arange(0, t_max, 1/new_fs)` with `t_max = len(spike_shape)/fs`, so it
is non-empty, starts at 0, is strictly increasing with step `1/new_fs`,
stays inside `[0, t_max)` and covers the duration `t_max`. -/
theorem C4_upsample_grid (spl : ℚ → ℚ) (spike_shape : List ℚ) (fs new_fs : ℚ)
    (hs : spike_shape ≠ []) (hfs : 0 < fs) (hnew : 0 < new_fs) :
    (upsample_spike spl spike_shape fs new_fs).2.length =
      (upsample_spike spl spike_shape fs new_fs).1.length ∧
    (upsample_spike spl spike_shape fs new_fs).1 =
      arange ((spike_shape.length : ℚ) / fs) (1 / new_fs) ∧
    (upsample_spike spl spike_shape fs new_fs).1 ≠ [] ∧
    (upsample_spike spl spike_shape fs new_fs).1.getD 0 0 = 0 ∧
    (∀ i, i + 1 < (upsample_spike spl spike_shape fs new_fs).1.length →
      (upsample_spike spl spike_shape fs new_fs).1.getD (i + 1) 0 -
        (upsample_spike spl spike_shape fs new_fs).1.getD i 0 = 1 / new_fs) ∧
    List.Sorted (· < ·) (upsample_spike spl spike_shape fs new_fs).1 ∧
    (∀ i, i < (upsample_spike spl spike_shape fs new_fs).1.length →
      0 ≤ (upsample_spike spl spike_shape fs new_fs).1.getD i 0 ∧
      (upsample_spike spl spike_shape fs new_fs).1.getD i 0 <
        (spike_shape.length : ℚ) / fs) ∧
    (spike_shape.length : ℚ) / fs ≤
      ((upsample_spike spl spike_shape fs new_fs).1.length : ℚ) * (1 / new_fs) := by
  have hstop : 0 < (spike_shape.length : ℚ) / fs := by
    apply div_pos _ hfs
    have : 0 < spike_shape.length := List.length_pos.mpr hs
    exact_mod_cast this
  have hstep : 0 < 1 / new_fs := by positivity
  have h1 : (upsample_spike spl spike_shape fs new_fs).1 =
      arange ((spike_shape.length : ℚ) / fs) (1 / new_fs) := rfl
  have h2 : (upsample_spike spl spike_shape fs new_fs).2 =
      (arange ((spike_shape.length : ℚ) / fs) (1 / new_fs)).map spl := rfl
  have hne : arange ((spike_shape.length : ℚ) / fs) (1 / new_fs) ≠ [] :=
    arange_ne_nil hstop hstep
  refine ⟨by rw [h1, h2, List.length_map], h1, by rw [h1]; exact hne, ?_, ?_, ?_, ?_, ?_⟩
  · rw [h1]
    have h0 : 0 < (arange ((spike_shape.length : ℚ) / fs) (1 / new_fs)).length :=
      List.length_pos.mpr hne
    rw [arange_getD h0]
    simp
  · intro i hi
    rw [h1] at hi ⊢
    rw [arange_getD hi, arange_getD (by omega : i < (arange _ _).length)]
    push_cast
    ring
  · rw [h1]
    exact arange_sorted_lt hstep
  · intro i hi
    rw [h1] at hi ⊢
    constructor
    · rw [arange_getD hi]
      positivity
    · exact arange_getD_lt_stop hstep hi
  · rw [h1]
    exact stop_le_arange_length_mul hstop hstep

/-- Witness for C4 at a concrete two-sample shape. -/
theorem C4_upsample_grid_witness :
    (upsample_spike (fun x => x) [1, -2] 1 2).2.length =
      (upsample_spike (fun x => x) [1, -2] 1 2).1.length ∧
    (upsample_spike (fun x => x) [1, -2] 1 2).1 =
      arange ((([1, -2] : List ℚ).length : ℚ) / 1) (1 / 2) ∧
    (upsample_spike (fun x => x) [1, -2] 1 2).1 ≠ [] ∧
    (upsample_spike (fun x => x) [1, -2] 1 2).1.getD 0 0 = 0 ∧
    (∀ i, i + 1 < (upsample_spike (fun x => x) [1, -2] 1 2).1.length →
      (upsample_spike (fun x => x) [1, -2] 1 2).1.getD (i + 1) 0 -
        (upsample_spike (fun x => x) [1, -2] 1 2).1.getD i 0 = 1 / 2) ∧
    List.Sorted (· < ·) (upsample_spike (fun x => x) [1, -2] 1 2).1 ∧
    (∀ i, i < (upsample_spike (fun x => x) [1, -2] 1 2).1.length →
      0 ≤ (upsample_spike (fun x => x) [1, -2] 1 2).1.getD i 0 ∧
      (upsample_spike (fun x => x) [1, -2] 1 2).1.getD i 0 <
        (([1, -2] : List ℚ).length : ℚ) / 1) ∧
    (([1, -2] : List ℚ).length : ℚ) / 1 ≤
      ((upsample_spike (fun x => x) [1, -2] 1 2).1.length : ℚ) * (1 / 2) :=
  C4_upsample_grid (fun x => x) [1, -2] 1 2 (by decide) (by decide) (by decide)

/-! ### Wide and narrow clusters (C6) -/

theorem get_wide_narrow_foldl {α : Type} (width : α → ℚ) (thresh : ℚ) :
    ∀ (l : List α) (w n : List α),
      l.foldl (fun wn c =>
          if width c ≥ thresh then (wn.1 ++ [c], wn.2) else (wn.1, wn.2 ++ [c]))
        (w, n) =
      (w ++ l.filter (fun c => decide (width c ≥ thresh)),
       n ++ l.filter (fun c => decide (width c < thresh))) := by
  intro l
  induction l with
  | nil => intro w n; simp
  | cons x xs ih =>
    intro w n
    by_cases hx : width x ≥ thresh
    · rw [List.foldl_cons, if_pos hx, ih,
        List.filter_cons_of_pos (by simpa using hx),
        List.filter_cons_of_neg (by simp; linarith)]
      simp
    · rw [List.foldl_cons, if_neg hx, ih,
        List.filter_cons_of_neg (by simpa using hx),
        List.filter_cons_of_pos (by simp; linarith)]
      simp

/-- C6: `get_wide_narrow` partitions the cluster list, preserving input
order: `wide` is exactly the sublist of clusters with width `≥ thresh`,
`narrow` exactly the sublist with width `< thresh`, and each cluster
occurrence lands in exactly one of the two lists. -/
theorem C6_wide_narrow_partition {α : Type} [DecidableEq α] (width : α → ℚ)
    (cluster_list : List α) (thresh : ℚ) :
    (get_wide_narrow width cluster_list thresh).1 =
      cluster_list.filter (fun c => decide (width c ≥ thresh)) ∧
    (get_wide_narrow width cluster_list thresh).2 =
      cluster_list.filter (fun c => decide (width c < thresh)) ∧
    (∀ c : α, (get_wide_narrow width cluster_list thresh).1.count c +
        (get_wide_narrow width cluster_list thresh).2.count c =
      cluster_list.count c) := by
  have h := get_wide_narrow_foldl width thresh cluster_list [] []
  have h1 : (get_wide_narrow width cluster_list thresh).1 =
      cluster_list.filter (fun c => decide (width c ≥ thresh)) := by
    unfold get_wide_narrow
    rw [h]
    simp
  have h2 : (get_wide_narrow width cluster_list thresh).2 =
      cluster_list.filter (fun c => decide (width c < thresh)) := by
    unfold get_wide_narrow
    rw [h]
    simp
  refine ⟨h1, h2, ?_⟩
  intro c
  rw [h1, h2]
  by_cases hc : width c ≥ thresh
  · have hcnt : (cluster_list.filter (fun d => decide (width d ≥ thresh))).count c =
        cluster_list.count c := List.count_filter (by simpa using hc)
    have hz : (cluster_list.filter (fun d => decide (width d < thresh))).count c = 0 := by
      rw [List.count_eq_zero]
      intro hmem
      have hlt := (List.mem_filter.mp hmem).2
      simp only [decide_eq_true_eq] at hlt
      linarith
    rw [hcnt, hz]
    omega
  · have hlt : width c < thresh := lt_of_not_ge hc
    have hcnt : (cluster_list.filter (fun d => decide (width d < thresh))).count c =
        cluster_list.count c := List.count_filter (by simpa using hlt)
    have hz : (cluster_list.filter (fun d => decide (width d ≥ thresh))).count c = 0 := by
      rw [List.count_eq_zero]
      intro hmem
      have hge := (List.mem_filter.mp hmem).2
      simp only [decide_eq_true_eq] at hge
      exact hc hge
    rw [hcnt, hz]
    omega

/-! ### Width at half height (C5) -/

theorem getLastD_cons_mem (b : ℕ) (l : List ℕ) (d : ℕ) :
    (b :: l).getLastD d ∈ b :: l := by
  induction l generalizing b d with
  | nil =>
    rw [List.getLastD_cons]
    simp
  | cons c t ih =>
    rw [List.getLastD_cons]
    exact List.mem_cons_of_mem b (ih c b)

theorem sorted_lt_le_getLastD :
    ∀ (t : List ℕ) (b d x : ℕ), (b :: t).Pairwise (· < ·) → x ∈ b :: t →
      x ≤ (b :: t).getLastD d := by
  intro t
  induction t with
  | nil =>
    intro b d x _ hx
    rw [List.getLastD_cons]
    rcases List.mem_cons.mp hx with h | h
    · subst h; simp
    · cases h
  | cons c u ih =>
    intro b d x hp hx
    rw [List.getLastD_cons]
    have hp' : (c :: u).Pairwise (· < ·) := (List.pairwise_cons.mp hp).2
    rcases List.mem_cons.mp hx with h | h
    · subst h
      have hbc : x < c := (List.pairwise_cons.mp hp).1 c (List.mem_cons_self c u)
      have hc : c ≤ (c :: u).getLastD x := ih c x c hp' (List.mem_cons_self c u)
      omega
    · exact ih c b x hp' h

theorem sorted_lt_headD_le {l : List ℕ} (hl : l.Pairwise (· < ·)) {x : ℕ}
    (hx : x ∈ l) : l.headD 0 ≤ x := by
  cases l with
  | nil => cases hx
  | cons b t =>
    rcases List.mem_cons.mp hx with h | h
    · subst h; simp
    · have : b < x := (List.pairwise_cons.mp hl).1 x h
      simp
      omega

theorem mem_zeroCrossings {s' : List ℚ} {i : ℕ} (h : i ∈ zeroCrossings s') :
    i < s'.length - 1 := by
  unfold zeroCrossings at h
  have := (List.mem_filter.mp h).1
  simpa [List.mem_range] using this

theorem pairwise_zeroCrossings (s' : List ℚ) :
    (zeroCrossings s').Pairwise (· < ·) := by
  unfold zeroCrossings
  exact List.Pairwise.sublist (List.filter_sublist _) (List.pairwise_lt_range _)

theorem filter_ne_nil_iff {p : ℕ → Bool} {l : List ℕ} :
    l.filter p ≠ [] ↔ ∃ x ∈ l, p x = true := by
  rw [Ne, List.filter_eq_nil_iff]
  push_neg
  constructor
  · rintro ⟨x, hx, hpx⟩
    exact ⟨x, hx, by simpa using hpx⟩
  · rintro ⟨x, hx, hpx⟩
    exact ⟨x, hx, by simpa using hpx⟩

/-- C5: under a strictly increasing time axis matching a non-empty spike
shape with a genuine (negative) trough, the index the code recovers from
the trough time is the argmin index; `get_width_half_height` returns `nan`
exactly when the normalised-and-offset shape has no sign change strictly
before the trough index or none strictly after it; and otherwise it
returns `time[post] - time[pre]` with `pre` the last sign change before
the trough and `post` the first one after it, a non-negative value. -/
theorem C5_width_half_height (time s : List ℚ) (hs : s ≠ [])
    (hmin : listMin s < 0) (hsort : List.Sorted (· < ·) time)
    (hlen : time.length = s.length) :
    time.findIdx (fun x => decide (x = (get_troughpeak time s).1)) = argminIdx s ∧
    (get_width_half_height time s = none ↔
      ((¬ ∃ i ∈ normCrossings s, i < argminIdx s) ∨
       (¬ ∃ j ∈ normCrossings s, argminIdx s < j))) ∧
    (∀ w, get_width_half_height time s = some w →
      ∃ pre post : ℕ,
        pre ∈ normCrossings s ∧ pre < argminIdx s ∧
        (∀ i ∈ normCrossings s, i < argminIdx s → i ≤ pre) ∧
        post ∈ normCrossings s ∧ argminIdx s < post ∧
        (∀ j ∈ normCrossings s, argminIdx s < j → post ≤ j) ∧
        w = time.getD post 0 - time.getD pre 0 ∧ 0 ≤ w) := by
  have hti : argminIdx s < s.length := argminIdx_lt_length hs
  have htlen : argminIdx s < time.length := by omega
  have htr : (get_troughpeak time s).1 = time.getD (argminIdx s) 0 := rfl
  have hfind : time.findIdx (fun x => decide (x = (get_troughpeak time s).1)) =
      argminIdx s := by
    rw [htr]
    apply (List.findIdx_eq htlen).mpr
    constructor
    · rw [List.getD_eq_getElem _ _ htlen]
      simp
    · intro j hj
      have hjlen : j < time.length := lt_trans hj htlen
      have hlt : time[j] < time[argminIdx s] :=
        List.pairwise_iff_getElem.mp hsort j (argminIdx s) hjlen htlen hj
      rw [List.getD_eq_getElem _ _ htlen]
      simpa using ne_of_lt hlt
  have hs2 : (s.map (fun x => x / (-(listMin s)))).map (fun x => x + 1 / 2) =
      s.map (fun x => x / (-(listMin s)) + 1 / 2) := by
    rw [List.map_map]
    rfl
  have hnc : zeroCrossings (s.map (fun x => x / (-(listMin s)) + 1 / 2)) =
      normCrossings s := rfl
  have key : get_width_half_height time s =
      (if (zeroCrossings ((s.map (fun x => x / (-(listMin s)))).map
              (fun x => x + 1 / 2))).filter
            (fun i => decide (i < time.findIdx
              (fun x => decide (x = (get_troughpeak time s).1)))) ≠ [] ∧
          (zeroCrossings ((s.map (fun x => x / (-(listMin s)))).map
              (fun x => x + 1 / 2))).filter
            (fun j => decide (time.findIdx
              (fun x => decide (x = (get_troughpeak time s).1)) < j)) ≠ [] then
        some (time.getD (((zeroCrossings ((s.map (fun x => x / (-(listMin s)))).map
              (fun x => x + 1 / 2))).filter
            (fun j => decide (time.findIdx
              (fun x => decide (x = (get_troughpeak time s).1)) < j))).headD 0) 0 -
          time.getD (((zeroCrossings ((s.map (fun x => x / (-(listMin s)))).map
              (fun x => x + 1 / 2))).filter
            (fun i => decide (i < time.findIdx
              (fun x => decide (x = (get_troughpeak time s).1))))).getLastD 0) 0)
      else none) := rfl
  rw [hs2, hnc, hfind] at key
  have hpw : ((normCrossings s).filter
      (fun i => decide (i < argminIdx s))).Pairwise (· < ·) :=
    List.Pairwise.sublist (List.filter_sublist _) (pairwise_zeroCrossings _)
  have hpw' : ((normCrossings s).filter
      (fun j => decide (argminIdx s < j))).Pairwise (· < ·) :=
    List.Pairwise.sublist (List.filter_sublist _) (pairwise_zeroCrossings _)
  refine ⟨hfind, ?_, ?_⟩
  · rw [key]
    by_cases hc : ((normCrossings s).filter
        (fun i => decide (i < argminIdx s))) ≠ [] ∧
        ((normCrossings s).filter (fun j => decide (argminIdx s < j))) ≠ []
    · rw [if_pos hc]
      simp only [reduceCtorEq, false_iff]
      push_neg
      obtain ⟨hA, hB⟩ := hc
      obtain ⟨i, hiMem, hiLt⟩ := filter_ne_nil_iff.mp hA
      obtain ⟨j, hjMem, hjGt⟩ := filter_ne_nil_iff.mp hB
      exact ⟨⟨i, hiMem, by simpa using hiLt⟩, ⟨j, hjMem, by simpa using hjGt⟩⟩
    · rw [if_neg hc]
      simp only [true_iff]
      rw [not_and_or] at hc
      rcases hc with hc | hc
      · left
        rw [not_not] at hc
        intro hex
        obtain ⟨i, hiMem, hiLt⟩ := hex
        have : i ∈ ((normCrossings s).filter (fun i => decide (i < argminIdx s))) :=
          List.mem_filter.mpr ⟨hiMem, by simpa using hiLt⟩
        rw [hc] at this
        cases this
      · right
        rw [not_not] at hc
        intro hex
        obtain ⟨j, hjMem, hjGt⟩ := hex
        have : j ∈ ((normCrossings s).filter (fun j => decide (argminIdx s < j))) :=
          List.mem_filter.mpr ⟨hjMem, by simpa using hjGt⟩
        rw [hc] at this
        cases this
  · intro w hw
    rw [key] at hw
    by_cases hc : ((normCrossings s).filter
        (fun i => decide (i < argminIdx s))) ≠ [] ∧
        ((normCrossings s).filter (fun j => decide (argminIdx s < j))) ≠ []
    · rw [if_pos hc] at hw
      obtain ⟨hA, hB⟩ := hc
      obtain ⟨a, ta, hAeq⟩ := List.exists_cons_of_ne_nil hA
      obtain ⟨bb, tb, hBeq⟩ := List.exists_cons_of_ne_nil hB
      set pre := ((normCrossings s).filter
        (fun i => decide (i < argminIdx s))).getLastD 0 with hpre
      set post := ((normCrossings s).filter
        (fun j => decide (argminIdx s < j))).headD 0 with hpost
      have hpreA : pre ∈ ((normCrossings s).filter
          (fun i => decide (i < argminIdx s))) := by
        rw [hpre, hAeq]
        exact getLastD_cons_mem a ta 0
      have hpostB : post ∈ ((normCrossings s).filter
          (fun j => decide (argminIdx s < j))) := by
        rw [hpost, hBeq]
        simp
      have hpreNC : pre ∈ normCrossings s := List.mem_of_mem_filter hpreA
      have hpostNC : post ∈ normCrossings s := List.mem_of_mem_filter hpostB
      have hpreLt : pre < argminIdx s := by
        have := List.of_mem_filter hpreA
        simpa using this
      have hpostGt : argminIdx s < post := by
        have := List.of_mem_filter hpostB
        simpa using this
      refine ⟨pre, post, hpreNC, hpreLt, ?_, hpostNC, hpostGt, ?_, ?_, ?_⟩
      · intro i hiMem hiLt
        have hiA : i ∈ ((normCrossings s).filter
            (fun i => decide (i < argminIdx s))) :=
          List.mem_filter.mpr ⟨hiMem, by simpa using hiLt⟩
        rw [hpre, hAeq]
        rw [hAeq] at hiA
        exact sorted_lt_le_getLastD ta a 0 i (hAeq ▸ hpw) hiA
      · intro j hjMem hjGt
        have hjB : j ∈ ((normCrossings s).filter
            (fun j => decide (argminIdx s < j))) :=
          List.mem_filter.mpr ⟨hjMem, by simpa using hjGt⟩
        exact sorted_lt_headD_le hpw' hjB
      · have := Option.some.inj hw
        exact this.symm
      · have hweq : w = time.getD post 0 - time.getD pre 0 :=
          (Option.some.inj hw).symm
        have hslen : 0 < s.length := List.length_pos.mpr hs
        have hpostLen : post < time.length := by
          have := mem_zeroCrossings (by
            unfold normCrossings at hpostNC
            exact hpostNC)
          rw [List.length_map] at this
          omega
        have hmono : time.getD pre 0 ≤ time.getD post 0 :=
          sorted_le_getD (List.Sorted.le_of_lt hsort) (by omega) hpostLen
        rw [hweq]
        linarith
    · rw [if_neg hc] at hw
      cases hw

/-- Witness for C5 on a concrete W-shaped spike. -/
theorem C5_width_half_height_witness :
    ([0, 1, 2, 3, 4] : List ℚ).findIdx
        (fun x => decide (x = (get_troughpeak [0, 1, 2, 3, 4] [1, 1, -2, 1, 1]).1)) =
      argminIdx [1, 1, -2, 1, 1] ∧
    (get_width_half_height [0, 1, 2, 3, 4] [1, 1, -2, 1, 1] = none ↔
      ((¬ ∃ i ∈ normCrossings [1, 1, -2, 1, 1], i < argminIdx [1, 1, -2, 1, 1]) ∨
       (¬ ∃ j ∈ normCrossings [1, 1, -2, 1, 1], argminIdx [1, 1, -2, 1, 1] < j))) ∧
    (∀ w, get_width_half_height [0, 1, 2, 3, 4] [1, 1, -2, 1, 1] = some w →
      ∃ pre post : ℕ,
        pre ∈ normCrossings [1, 1, -2, 1, 1] ∧ pre < argminIdx [1, 1, -2, 1, 1] ∧
        (∀ i ∈ normCrossings [1, 1, -2, 1, 1], i < argminIdx [1, 1, -2, 1, 1] → i ≤ pre) ∧
        post ∈ normCrossings [1, 1, -2, 1, 1] ∧ argminIdx [1, 1, -2, 1, 1] < post ∧
        (∀ j ∈ normCrossings [1, 1, -2, 1, 1], argminIdx [1, 1, -2, 1, 1] < j → post ≤ j) ∧
        w = ([0, 1, 2, 3, 4] : List ℚ).getD post 0 -
          ([0, 1, 2, 3, 4] : List ℚ).getD pre 0 ∧ 0 ≤ w) :=
  C5_width_half_height [0, 1, 2, 3, 4] [1, 1, -2, 1, 1] (by decide) (by decide)
    (by decide) (by decide)

/-! ### In-place normalisation of the spike shape (C9) -/

/-- C9: `get_width_half_height` leaves its caller holding the spike-shape
buffer divided element-wise by the negation of its minimum (the in-place
`spike_shape /= -spike_shape.min()`); concretely, the buffer of
`[1, -2, 1]` comes back changed. -/
theorem C9_inplace_normalization :
    (∀ time s : List ℚ,
      (get_width_half_height_full time s).2 =
        s.map (fun x => x / (-(listMin s)))) ∧
    (get_width_half_height_full [0, 1, 2] [1, -2, 1]).2 ≠ [1, -2, 1] := by
  have hbuf : ∀ time s : List ℚ,
      (get_width_half_height_full time s).2 =
        s.map (fun x => x / (-(listMin s))) := fun time s => rfl
  refine ⟨hbuf, ?_⟩
  rw [hbuf]
  have hm : listMin [1, -2, 1] = -2 := by decide
  rw [hm]
  simp only [List.map_cons, List.map_nil]
  norm_num

/-! ### Additivity of the gaussian PSTH (C8) -/

theorem zipWith_add_assoc (x y z : List ℝ) :
    List.zipWith (· + ·) (List.zipWith (· + ·) x y) z =
      List.zipWith (· + ·) x (List.zipWith (· + ·) y z) := by
  induction x generalizing y z with
  | nil => simp
  | cons a xs ih =>
    cases y with
    | nil => simp
    | cons b ys =>
      cases z with
      | nil => simp
      | cons c zs =>
        simp only [List.zipWith_cons_cons]
        rw [ih ys zs, add_assoc]

theorem foldl_zip_shift (g : ℝ → List ℝ) :
    ∀ (b : List ℝ) (p q : List ℝ),
      b.foldl (fun out t => List.zipWith (· + ·) out (g t))
          (List.zipWith (· + ·) p q) =
        List.zipWith (· + ·) p
          (b.foldl (fun out t => List.zipWith (· + ·) out (g t)) q) := by
  intro b
  induction b with
  | nil => intro p q; rfl
  | cons t ts ih =>
    intro p q
    rw [List.foldl_cons, List.foldl_cons, zipWith_add_assoc, ih]

theorem foldl_zip_length (g : ℝ → List ℝ) (n : ℕ) (hg : ∀ t, (g t).length = n) :
    ∀ (b : List ℝ) (q : List ℝ), q.length = n →
      (b.foldl (fun out t => List.zipWith (· + ·) out (g t)) q).length = n := by
  intro b
  induction b with
  | nil => intro q hq; exact hq
  | cons t ts ih =>
    intro q hq
    rw [List.foldl_cons]
    exact ih _ (by rw [List.length_zipWith, hq, hg t, Nat.min_self])

theorem zipWith_add_map_zero (times : List ℝ) :
    ∀ (x : List ℝ), x.length = times.length →
      List.zipWith (· + ·) x (times.map (fun _ => (0 : ℝ))) = x := by
  induction times with
  | nil =>
    intro x hx
    rw [List.length_nil] at hx
    rw [List.eq_nil_of_length_eq_zero hx]
    rfl
  | cons t ts ih =>
    intro x hx
    cases x with
    | nil => rfl
    | cons a xs =>
      simp only [List.map_cons, List.zipWith_cons_cons, add_zero]
      rw [ih xs (by simpa using hx)]

theorem mem_zipWith_add_nonneg :
    ∀ (u v : List ℝ), (∀ x ∈ u, 0 ≤ x) → (∀ x ∈ v, 0 ≤ x) →
      ∀ x ∈ List.zipWith (· + ·) u v, 0 ≤ x := by
  intro u
  induction u with
  | nil => intro v _ _ x hx; cases hx
  | cons a us ih =>
    intro v hu hv x hx
    cases v with
    | nil => cases hx
    | cons b vs =>
      rw [List.zipWith_cons_cons] at hx
      rcases List.mem_cons.mp hx with h | h
      · subst h
        exact add_nonneg (hu a (List.mem_cons_self a us))
          (hv b (List.mem_cons_self b vs))
      · exact ih vs (fun y hy => hu y (List.mem_cons_of_mem a hy))
          (fun y hy => hv y (List.mem_cons_of_mem b hy)) x h

/-- C8: `gaussian_psth_func` is additive in its spike list — on `a ++ b`
it is the pointwise sum of the results on `a` and on `b` — the empty
spike list gives the all-zeros vector, and every entry of the output is
non-negative. -/
theorem C8_gaussian_psth_additive :
    (∀ (times : List ℝ) (sigma : ℝ) (a b : List ℝ),
      gaussian_psth_func times (a ++ b) sigma =
        List.zipWith (· + ·) (gaussian_psth_func times a sigma)
          (gaussian_psth_func times b sigma)) ∧
    (∀ (times : List ℝ) (sigma : ℝ),
      gaussian_psth_func times [] sigma = times.map (fun _ => (0 : ℝ))) ∧
    (∀ (times : List ℝ) (sigma : ℝ) (sd : List ℝ),
      ∀ x ∈ gaussian_psth_func times sd sigma, 0 ≤ x) := by
  refine ⟨?_, fun times sigma => rfl, ?_⟩
  · intro times sigma a b
    unfold gaussian_psth_func
    rw [List.foldl_append]
    have hlen : (a.foldl
        (fun output spike_time => List.zipWith (· + ·) output
          (times.map (fun t => Real.exp (-1 * (t - spike_time) ^ 2 / (2 * sigma ^ 2)))))
        (times.map (fun _ => (0 : ℝ)))).length = times.length := by
      apply foldl_zip_length _ times.length (fun t => by rw [List.length_map])
      rw [List.length_map]
    calc b.foldl
          (fun output spike_time => List.zipWith (· + ·) output
            (times.map (fun t => Real.exp (-1 * (t - spike_time) ^ 2 / (2 * sigma ^ 2)))))
          (a.foldl
            (fun output spike_time => List.zipWith (· + ·) output
              (times.map (fun t => Real.exp (-1 * (t - spike_time) ^ 2 / (2 * sigma ^ 2)))))
            (times.map (fun _ => (0 : ℝ))))
        = b.foldl
            (fun output spike_time => List.zipWith (· + ·) output
              (times.map (fun t => Real.exp (-1 * (t - spike_time) ^ 2 / (2 * sigma ^ 2)))))
            (List.zipWith (· + ·)
              (a.foldl
                (fun output spike_time => List.zipWith (· + ·) output
                  (times.map (fun t => Real.exp (-1 * (t - spike_time) ^ 2 / (2 * sigma ^ 2)))))
                (times.map (fun _ => (0 : ℝ))))
              (times.map (fun _ => (0 : ℝ)))) := by
          rw [zipWith_add_map_zero times _ hlen]
      _ = _ := by
          rw [foldl_zip_shift]
  · intro times sigma sd
    have main : ∀ (b : List ℝ) (q : List ℝ), (∀ x ∈ q, 0 ≤ x) →
        ∀ x ∈ b.foldl
          (fun output spike_time => List.zipWith (· + ·) output
            (times.map (fun t => Real.exp (-1 * (t - spike_time) ^ 2 / (2 * sigma ^ 2)))))
          q, 0 ≤ x := by
      intro b
      induction b with
      | nil => intro q hq x hx; exact hq x hx
      | cons t ts ih =>
        intro q hq x hx
        rw [List.foldl_cons] at hx
        apply ih _ _ x hx
        apply mem_zipWith_add_nonneg _ _ hq
        intro y hy
        obtain ⟨u, _, huy⟩ := List.mem_map.mp hy
        rw [← huy]
        exact le_of_lt (Real.exp_pos _)
    apply main
    intro x hx
    obtain ⟨u, _, hux⟩ := List.mem_map.mp hx
    rw [← hux]

/-! ### Per-cluster mean waveforms (C7, C10): grouping infrastructure -/

theorem mem_groupKeys {x : ℕ} {l : List ℕ} : x ∈ groupKeys l ↔ x ∈ l := by
  unfold groupKeys
  rw [(List.mergeSort_perm l.dedup (fun a b => decide (a ≤ b))).mem_iff,
    List.mem_dedup]

theorem nodup_groupKeys (l : List ℕ) : (groupKeys l).Nodup := by
  unfold groupKeys
  exact ((List.mergeSort_perm l.dedup (fun a b => decide (a ≤ b))).nodup_iff).mpr
    l.nodup_dedup

theorem sum_map_add_distrib {M : Type} [AddCommMonoid M] (keys : List ℕ)
    (f g : ℕ → M) :
    (keys.map (fun r => f r + g r)).sum = (keys.map f).sum + (keys.map g).sum := by
  induction keys with
  | nil => simp
  | cons r rs ih =>
    simp only [List.map_cons, List.sum_cons, ih]
    exact add_add_add_comm _ _ _ _

theorem sum_map_zero {M : Type} [AddCommMonoid M] (keys : List ℕ) :
    (keys.map (fun _ => (0 : M))).sum = 0 := by
  induction keys with
  | nil => rfl
  | cons r rs ih => simp [ih]

theorem sum_indicator_not_mem {M : Type} [AddCommMonoid M] (k : ℕ) (v : M) :
    ∀ (keys : List ℕ), k ∉ keys →
      (keys.map (fun r => if k = r then v else 0)).sum = 0 := by
  intro keys
  induction keys with
  | nil => intro _; rfl
  | cons r rs ih =>
    intro hk
    have h1 : k ≠ r := fun h => hk (h ▸ List.mem_cons_self r rs)
    have h2 : k ∉ rs := fun h => hk (List.mem_cons_of_mem r h)
    simp only [List.map_cons, List.sum_cons, if_neg h1, ih h2, zero_add]

theorem sum_indicator_mem {M : Type} [AddCommMonoid M] (k : ℕ) (v : M) :
    ∀ (keys : List ℕ), keys.Nodup → k ∈ keys →
      (keys.map (fun r => if k = r then v else 0)).sum = v := by
  intro keys
  induction keys with
  | nil => intro _ hk; cases hk
  | cons r rs ih =>
    intro hnd hk
    obtain ⟨hr, hrs⟩ := List.nodup_cons.mp hnd
    simp only [List.map_cons, List.sum_cons]
    by_cases hkr : k = r
    · rw [if_pos hkr, sum_indicator_not_mem k v rs (hkr ▸ hr), add_zero]
    · rw [if_neg hkr, zero_add]
      refine ih hrs ?_
      rcases List.mem_cons.mp hk with h | h
      · exact absurd h hkr
      · exact h

theorem group_partition {M : Type} [AddCommMonoid M] (F : SpikeRow → M)
    (P : SpikeRow → Bool) (keys : List ℕ) (hnd : keys.Nodup) :
    ∀ (l : List SpikeRow), (∀ s ∈ l, s.recording ∈ keys) →
      (keys.map (fun r =>
        ((l.filter (fun s => decide (s.recording = r) && P s)).map F).sum)).sum =
      ((l.filter P).map F).sum := by
  intro l
  induction l with
  | nil =>
    intro _
    simp only [List.filter_nil, List.map_nil, List.sum_nil]
    simpa using sum_map_zero (M := M) keys
  | cons s l ih =>
    intro hcov
    have hs : s.recording ∈ keys := hcov s (List.mem_cons_self s l)
    have hcov' : ∀ x ∈ l, x.recording ∈ keys :=
      fun x hx => hcov x (List.mem_cons_of_mem s hx)
    have hterm : ∀ r ∈ keys,
        ((List.filter (fun x => decide (x.recording = r) && P x) (s :: l)).map F).sum
          = (if s.recording = r ∧ P s = true then F s else 0) +
            ((List.filter (fun x => decide (x.recording = r) && P x) l).map F).sum := by
      intro r _
      rw [List.filter_cons]
      by_cases hc : (decide (s.recording = r) && P s) = true
      · rw [if_pos hc, List.map_cons, List.sum_cons,
          if_pos (by simpa [Bool.and_eq_true] using hc)]
      · rw [if_neg hc, if_neg (by simpa [Bool.and_eq_true] using hc), zero_add]
    rw [List.map_congr_left hterm, sum_map_add_distrib, ih hcov']
    by_cases hP : P s = true
    · have hind : (keys.map (fun r => if s.recording = r ∧ P s = true then F s else 0)) =
          keys.map (fun r => if s.recording = r then F s else 0) := by
        apply List.map_congr_left
        intro r _
        by_cases hr : s.recording = r
        · rw [if_pos ⟨hr, hP⟩, if_pos hr]
        · rw [if_neg (fun hh => hr hh.1), if_neg hr]
      rw [hind, sum_indicator_mem s.recording (F s) keys hnd hs,
        List.filter_cons_of_pos hP, List.map_cons, List.sum_cons]
    · have hind : (keys.map (fun r => if s.recording = r ∧ P s = true then F s else 0)) =
          keys.map (fun _ => (0 : M)) := by
        apply List.map_congr_left
        intro r _
        rw [if_neg (fun hh => hP hh.2)]
      rw [hind, sum_map_zero, zero_add,
        List.filter_cons_of_neg (by simpa using hP)]

theorem inner_counts (data : ℕ → List (List ℚ)) (b a r : ℕ)
    (recGroup : List SpikeRow) :
    ∀ (ks : List ℕ), ks.Nodup → ∀ (st : CWState) (c : ℕ),
      (ks.foldl (cwf_step data b a r recGroup) st).counts c =
        st.counts c +
          (if c ∈ ks then
            (startsOf ((data r).length : ℤ) b a
              (recGroup.filter (fun s => decide (s.cluster = c)))).length
          else 0) := by
  intro ks
  induction ks with
  | nil => intro _ st c; simp
  | cons k ks ih =>
    intro hnd st c
    obtain ⟨hk, hks⟩ := List.nodup_cons.mp hnd
    rw [List.foldl_cons, ih hks _ c]
    have hstep : (cwf_step data b a r recGroup st k).counts c =
        (if c = k then st.counts c +
          (startsOf ((data r).length : ℤ) b a
            (recGroup.filter (fun s => decide (s.cluster = k)))).length
        else st.counts c) := rfl
    rw [hstep]
    by_cases hck : c = k
    · subst hck
      rw [if_pos rfl, if_neg hk, if_pos (List.mem_cons_self c ks), Nat.add_zero]
    · rw [if_neg hck]
      by_cases hmem : c ∈ ks
      · rw [if_pos hmem, if_pos (List.mem_cons_of_mem k hmem)]
      · rw [if_neg hmem, if_neg (by simp [List.mem_cons, hck, hmem])]

theorem inner_waveforms (data : ℕ → List (List ℚ)) (b a r : ℕ)
    (recGroup : List SpikeRow) :
    ∀ (ks : List ℕ), ks.Nodup → ∀ (st : CWState) (c i ch : ℕ),
      i < waveLen b a →
      (ks.foldl (cwf_step data b a r recGroup) st).waveforms c i ch =
        st.waveforms c i ch +
          (if c ∈ ks then
            ((startsOf ((data r).length : ℤ) b a
              (recGroup.filter (fun s => decide (s.cluster = c)))).map
                (fun s0 => cellAt data r s0 i ch)).sum
          else 0) := by
  intro ks
  induction ks with
  | nil => intro _ st c i ch _; simp
  | cons k ks ih =>
    intro hnd st c i ch hi
    obtain ⟨hk, hks⟩ := List.nodup_cons.mp hnd
    rw [List.foldl_cons, ih hks _ c i ch hi]
    have hstep : (cwf_step data b a r recGroup st k).waveforms c i ch =
        (if c = k ∧ i < waveLen b a then st.waveforms c i ch +
          ((startsOf ((data r).length : ℤ) b a
            (recGroup.filter (fun s => decide (s.cluster = k)))).map
              (fun s0 => cellAt data r s0 i ch)).sum
        else st.waveforms c i ch) := rfl
    rw [hstep]
    by_cases hck : c = k
    · subst hck
      rw [if_pos ⟨rfl, hi⟩, if_neg hk, if_pos (List.mem_cons_self c ks), add_zero]
    · rw [if_neg (fun hh => hck hh.1)]
      by_cases hmem : c ∈ ks
      · rw [if_pos hmem, if_pos (List.mem_cons_of_mem k hmem)]
      · rw [if_neg hmem, if_neg (by simp [List.mem_cons, hck, hmem])]

theorem if_mem_counts (spikes : List SpikeRow) (data : ℕ → List (List ℚ))
    (b a r c : ℕ) :
    (if c ∈ groupKeys ((spikes.filter (fun s => decide (s.recording = r))).map
        (fun s => s.cluster)) then
      (startsOf ((data r).length : ℤ) b a
        ((spikes.filter (fun s => decide (s.recording = r))).filter
          (fun s => decide (s.cluster = c)))).length
    else 0) =
      (startsOf ((data r).length : ℤ) b a
        ((spikes.filter (fun s => decide (s.recording = r))).filter
          (fun s => decide (s.cluster = c)))).length := by
  by_cases hm : c ∈ groupKeys ((spikes.filter (fun s => decide (s.recording = r))).map
      (fun s => s.cluster))
  · rw [if_pos hm]
  · rw [if_neg hm]
    have hempty : (spikes.filter (fun s => decide (s.recording = r))).filter
        (fun s => decide (s.cluster = c)) = [] := by
      rw [List.filter_eq_nil_iff]
      intro s hsmem
      simp only [decide_eq_true_eq]
      intro hcl
      apply hm
      rw [mem_groupKeys]
      exact List.mem_map.mpr ⟨s, hsmem, hcl⟩
    rw [hempty]
    rfl

theorem if_mem_waveforms (spikes : List SpikeRow) (data : ℕ → List (List ℚ))
    (b a r c i ch : ℕ) :
    (if c ∈ groupKeys ((spikes.filter (fun s => decide (s.recording = r))).map
        (fun s => s.cluster)) then
      ((startsOf ((data r).length : ℤ) b a
        ((spikes.filter (fun s => decide (s.recording = r))).filter
          (fun s => decide (s.cluster = c)))).map
            (fun s0 => cellAt data r s0 i ch)).sum
    else 0) =
      ((startsOf ((data r).length : ℤ) b a
        ((spikes.filter (fun s => decide (s.recording = r))).filter
          (fun s => decide (s.cluster = c)))).map
            (fun s0 => cellAt data r s0 i ch)).sum := by
  by_cases hm : c ∈ groupKeys ((spikes.filter (fun s => decide (s.recording = r))).map
      (fun s => s.cluster))
  · rw [if_pos hm]
  · rw [if_neg hm]
    have hempty : (spikes.filter (fun s => decide (s.recording = r))).filter
        (fun s => decide (s.cluster = c)) = [] := by
      rw [List.filter_eq_nil_iff]
      intro s hsmem
      simp only [decide_eq_true_eq]
      intro hcl
      apply hm
      rw [mem_groupKeys]
      exact List.mem_map.mpr ⟨s, hsmem, hcl⟩
    rw [hempty]
    rfl

theorem outer_counts (spikes : List SpikeRow) (data : ℕ → List (List ℚ))
    (b a : ℕ) :
    ∀ (rs : List ℕ) (st : CWState) (c : ℕ),
      (rs.foldl (fun st r =>
        let recGroup := spikes.filter (fun s => decide (s.recording = r))
        (groupKeys (recGroup.map (fun s => s.cluster))).foldl
          (cwf_step data b a r recGroup) st) st).counts c =
      st.counts c + (rs.map (fun r =>
        (startsOf ((data r).length : ℤ) b a
          ((spikes.filter (fun s => decide (s.recording = r))).filter
            (fun s => decide (s.cluster = c)))).length)).sum := by
  intro rs
  induction rs with
  | nil => intro st c; simp
  | cons r rs ih =>
    intro st c
    rw [List.foldl_cons, ih, List.map_cons, List.sum_cons]
    have hFr : ((fun st r =>
        let recGroup := spikes.filter (fun s => decide (s.recording = r))
        (groupKeys (recGroup.map (fun s => s.cluster))).foldl
          (cwf_step data b a r recGroup) st) st r).counts c =
        st.counts c + (if c ∈ groupKeys
            ((spikes.filter (fun s => decide (s.recording = r))).map
              (fun s => s.cluster)) then
          (startsOf ((data r).length : ℤ) b a
            ((spikes.filter (fun s => decide (s.recording = r))).filter
              (fun s => decide (s.cluster = c)))).length
        else 0) :=
      inner_counts data b a r (spikes.filter (fun s => decide (s.recording = r)))
        (groupKeys ((spikes.filter (fun s => decide (s.recording = r))).map
          (fun s => s.cluster))) (nodup_groupKeys _) st c
    rw [hFr, if_mem_counts spikes data b a r c, Nat.add_assoc]

theorem outer_waveforms (spikes : List SpikeRow) (data : ℕ → List (List ℚ))
    (b a : ℕ) (i ch : ℕ) (hi : i < waveLen b a) :
    ∀ (rs : List ℕ) (st : CWState) (c : ℕ),
      (rs.foldl (fun st r =>
        let recGroup := spikes.filter (fun s => decide (s.recording = r))
        (groupKeys (recGroup.map (fun s => s.cluster))).foldl
          (cwf_step data b a r recGroup) st) st).waveforms c i ch =
      st.waveforms c i ch + (rs.map (fun r =>
        ((startsOf ((data r).length : ℤ) b a
          ((spikes.filter (fun s => decide (s.recording = r))).filter
            (fun s => decide (s.cluster = c)))).map
              (fun s0 => cellAt data r s0 i ch)).sum)).sum := by
  intro rs
  induction rs with
  | nil => intro st c; simp
  | cons r rs ih =>
    intro st c
    rw [List.foldl_cons, ih, List.map_cons, List.sum_cons]
    have hFr : ((fun st r =>
        let recGroup := spikes.filter (fun s => decide (s.recording = r))
        (groupKeys (recGroup.map (fun s => s.cluster))).foldl
          (cwf_step data b a r recGroup) st) st r).waveforms c i ch =
        st.waveforms c i ch + (if c ∈ groupKeys
            ((spikes.filter (fun s => decide (s.recording = r))).map
              (fun s => s.cluster)) then
          ((startsOf ((data r).length : ℤ) b a
            ((spikes.filter (fun s => decide (s.recording = r))).filter
              (fun s => decide (s.cluster = c)))).map
                (fun s0 => cellAt data r s0 i ch)).sum
        else 0) :=
      inner_waveforms data b a r (spikes.filter (fun s => decide (s.recording = r)))
        (groupKeys ((spikes.filter (fun s => decide (s.recording = r))).map
          (fun s => s.cluster))) (nodup_groupKeys _) st c i ch hi
    rw [hFr, if_mem_waveforms spikes data b a r c i ch, add_assoc]

theorem cwf_state_counts (spikes : List SpikeRow) (data : ℕ → List (List ℚ))
    (b a c : ℕ) :
    (cwf_state spikes data b a).counts c =
      ((groupKeys (spikes.map (fun s => s.recording))).map (fun r =>
        (startsOf ((data r).length : ℤ) b a
          ((spikes.filter (fun s => decide (s.recording = r))).filter
            (fun s => decide (s.cluster = c)))).length)).sum := by
  unfold cwf_state
  rw [outer_counts]
  exact Nat.zero_add _

theorem cwf_state_waveforms (spikes : List SpikeRow) (data : ℕ → List (List ℚ))
    (b a c i ch : ℕ) (hi : i < waveLen b a) :
    (cwf_state spikes data b a).waveforms c i ch =
      ((groupKeys (spikes.map (fun s => s.recording))).map (fun r =>
        ((startsOf ((data r).length : ℤ) b a
          ((spikes.filter (fun s => decide (s.recording = r))).filter
            (fun s => decide (s.cluster = c)))).map
              (fun s0 => cellAt data r s0 i ch)).sum)).sum := by
  unfold cwf_state
  rw [outer_waveforms spikes data b a i ch hi]
  exact zero_add _

theorem sum_map_one {β : Type} (l : List β) :
    (l.map (fun _ => (1 : ℕ))).sum = l.length := by
  induction l with
  | nil => rfl
  | cons x xs ih =>
    simp only [List.map_cons, List.sum_cons, List.length_cons, ih]
    omega

theorem bool_and_rot (x y z : Bool) : ((x && y) && z) = (z && (y && x)) := by
  cases x <;> cases y <;> cases z <;> rfl

theorem startsOf_grp (data : ℕ → List (List ℚ)) (b a r : ℕ) (l : List SpikeRow)
    (hrec : ∀ s ∈ l, s.recording = r) :
    startsOf ((data r).length : ℤ) b a l =
      (l.filter (survives data b a)).map (fun s => s.time_samples - (b : ℤ)) := by
  unfold startsOf
  rw [List.filter_filter, List.filter_map]
  congr 1
  apply List.filter_congr
  intro s hs
  have hr := hrec s hs
  simp only [Function.comp_apply, survives, hr]
  exact Bool.and_comm _ _

theorem counts_bridge (spikes : List SpikeRow) (data : ℕ → List (List ℚ))
    (b a c : ℕ) :
    (cwf_state spikes data b a).counts c = (survivors spikes data b a c).length := by
  rw [cwf_state_counts]
  have hcov : ∀ s ∈ spikes, s.recording ∈ groupKeys (spikes.map (fun s => s.recording)) :=
    fun s hs => mem_groupKeys.mpr (List.mem_map.mpr ⟨s, hs, rfl⟩)
  have hterm : ∀ r ∈ groupKeys (spikes.map (fun s => s.recording)),
      (startsOf ((data r).length : ℤ) b a
        ((spikes.filter (fun s => decide (s.recording = r))).filter
          (fun s => decide (s.cluster = c)))).length =
      ((spikes.filter (fun s => decide (s.recording = r) &&
        (decide (s.cluster = c) && survives data b a s))).map
          (fun _ => (1 : ℕ))).sum := by
    intro r _
    have hrec : ∀ s ∈ (spikes.filter (fun s => decide (s.recording = r))).filter
        (fun s => decide (s.cluster = c)), s.recording = r := by
      intro s hsm
      have h1 : s ∈ spikes.filter (fun s => decide (s.recording = r)) :=
        List.mem_of_mem_filter hsm
      have := List.of_mem_filter h1
      simpa using this
    rw [startsOf_grp data b a r _ hrec, List.length_map, sum_map_one,
      List.filter_filter, List.filter_filter]
    apply congrArg List.length
    apply List.filter_congr
    intro s _
    exact bool_and_rot _ _ _
  rw [List.map_congr_left hterm,
    group_partition (fun _ => (1 : ℕ))
      (fun s => decide (s.cluster = c) && survives data b a s)
      (groupKeys (spikes.map (fun s => s.recording))) (nodup_groupKeys _)
      spikes hcov,
    sum_map_one]
  apply congrArg List.length
  unfold survivors
  rw [List.filter_filter]
  apply List.filter_congr
  intro s _
  exact Bool.and_comm _ _

theorem waveforms_bridge (spikes : List SpikeRow) (data : ℕ → List (List ℚ))
    (b a c i ch : ℕ) (hi : i < waveLen b a) :
    (cwf_state spikes data b a).waveforms c i ch =
      ((survivors spikes data b a c).map (fun s => windowAt data b s i ch)).sum := by
  rw [cwf_state_waveforms spikes data b a c i ch hi]
  have hcov : ∀ s ∈ spikes, s.recording ∈ groupKeys (spikes.map (fun s => s.recording)) :=
    fun s hs => mem_groupKeys.mpr (List.mem_map.mpr ⟨s, hs, rfl⟩)
  have hterm : ∀ r ∈ groupKeys (spikes.map (fun s => s.recording)),
      ((startsOf ((data r).length : ℤ) b a
        ((spikes.filter (fun s => decide (s.recording = r))).filter
          (fun s => decide (s.cluster = c)))).map
            (fun s0 => cellAt data r s0 i ch)).sum =
      ((spikes.filter (fun s => decide (s.recording = r) &&
        (decide (s.cluster = c) && survives data b a s))).map
          (fun s => windowAt data b s i ch)).sum := by
    intro r _
    have hrec : ∀ s ∈ (spikes.filter (fun s => decide (s.recording = r))).filter
        (fun s => decide (s.cluster = c)), s.recording = r := by
      intro s hsm
      have h1 : s ∈ spikes.filter (fun s => decide (s.recording = r)) :=
        List.mem_of_mem_filter hsm
      have := List.of_mem_filter h1
      simpa using this
    rw [startsOf_grp data b a r _ hrec, List.map_map]
    have hA : (((spikes.filter (fun s => decide (s.recording = r))).filter
          (fun s => decide (s.cluster = c))).filter (survives data b a)).map
          ((fun s0 => cellAt data r s0 i ch) ∘ (fun s => s.time_samples - (b : ℤ))) =
        (((spikes.filter (fun s => decide (s.recording = r))).filter
          (fun s => decide (s.cluster = c))).filter (survives data b a)).map
          (fun s => windowAt data b s i ch) := by
      apply List.map_congr_left
      intro s hsm
      have hrs : s.recording = r := hrec s (List.mem_of_mem_filter hsm)
      show cellAt data r (s.time_samples - (b : ℤ)) i ch = windowAt data b s i ch
      unfold windowAt
      rw [hrs]
    rw [hA, List.filter_filter, List.filter_filter]
    apply congrArg List.sum
    apply congrArg (List.map (fun s => windowAt data b s i ch))
    apply List.filter_congr
    intro s _
    exact bool_and_rot _ _ _
  rw [List.map_congr_left hterm,
    group_partition (fun s => windowAt data b s i ch)
      (fun s => decide (s.cluster = c) && survives data b a s)
      (groupKeys (spikes.map (fun s => s.recording))) (nodup_groupKeys _)
      spikes hcov]
  apply congrArg List.sum
  apply congrArg (List.map (fun s => windowAt data b s i ch))
  unfold survivors
  rw [List.filter_filter]
  apply List.filter_congr
  intro s _
  exact Bool.and_comm _ _

/-- Witness for C8 at a one-point time grid and singleton spike lists. -/
theorem C8_gaussian_psth_additive_witness :
    gaussian_psth_func [(0 : ℝ)] ([1] ++ [2]) 1 =
      List.zipWith (· + ·) (gaussian_psth_func [(0 : ℝ)] [1] 1)
        (gaussian_psth_func [(0 : ℝ)] [2] 1) ∧
    gaussian_psth_func [(0 : ℝ)] [] 1 = ([0] : List ℝ).map (fun _ => (0 : ℝ)) ∧
    0 ≤ 0 + Real.exp (-1 * ((0 : ℝ) - 1) ^ 2 / (2 * 1 ^ 2)) :=
  ⟨C8_gaussian_psth_additive.1 [0] 1 [1] [2],
   C8_gaussian_psth_additive.2.1 [0] 1,
   C8_gaussian_psth_additive.2.2 [0] 1 [1]
     (0 + Real.exp (-1 * ((0 : ℝ) - 1) ^ 2 / (2 * 1 ^ 2)))
     (List.mem_cons_self _ _)⟩

/-- C7: for every cluster with at least one surviving spike,
`compute_cluster_waveforms_fast` returns the arithmetic mean, over that
cluster's surviving spikes, of the raw-data windows of length
`before + 1 + after` aligned at `time_samples - before` — the divisor
being exactly the number of surviving spikes, where a spike survives iff
its start is strictly positive and start + window length is strictly
inside the recording. -/
theorem C7_cluster_waveforms_mean (spikes : List SpikeRow)
    (data : ℕ → List (List ℚ)) (before after c : ℕ)
    (hc : 0 < (survivors spikes data before after c).length) :
    (cwf_state spikes data before after).counts c =
      (survivors spikes data before after c).length ∧
    ∀ i ch : ℕ, i < waveLen before after →
      compute_cluster_waveforms_fast spikes data before after c i ch =
        some (((survivors spikes data before after c).map
            (fun s => windowAt data before s i ch)).sum /
          ((survivors spikes data before after c).length : ℚ)) := by
  refine ⟨counts_bridge spikes data before after c, ?_⟩
  intro i ch hi
  show divNaN ((cwf_state spikes data before after).waveforms c i ch)
      ((cwf_state spikes data before after).counts c) = _
  rw [waveforms_bridge spikes data before after c i ch hi,
    counts_bridge spikes data before after c]
  unfold divNaN
  rw [if_neg (by omega)]

/-- Witness for C7: two surviving spikes of cluster 5 on a ramp recording. -/
theorem C7_cluster_waveforms_mean_witness :
    (cwf_state [SpikeRow.mk 5 0 12, SpikeRow.mk 5 0 13]
        (fun r => if r = 0 then (List.range 20).map (fun (k : ℕ) => [(k : ℚ)]) else [])
        2 1).counts 5 =
      (survivors [SpikeRow.mk 5 0 12, SpikeRow.mk 5 0 13]
        (fun r => if r = 0 then (List.range 20).map (fun (k : ℕ) => [(k : ℚ)]) else [])
        2 1 5).length ∧
    ∀ i ch : ℕ, i < waveLen 2 1 →
      compute_cluster_waveforms_fast [SpikeRow.mk 5 0 12, SpikeRow.mk 5 0 13]
          (fun r => if r = 0 then (List.range 20).map (fun (k : ℕ) => [(k : ℚ)]) else [])
          2 1 5 i ch =
        some (((survivors [SpikeRow.mk 5 0 12, SpikeRow.mk 5 0 13]
            (fun r => if r = 0 then (List.range 20).map (fun (k : ℕ) => [(k : ℚ)]) else [])
            2 1 5).map
            (fun s => windowAt
              (fun r => if r = 0 then (List.range 20).map (fun (k : ℕ) => [(k : ℚ)]) else [])
              2 s i ch)).sum /
          ((survivors [SpikeRow.mk 5 0 12, SpikeRow.mk 5 0 13]
            (fun r => if r = 0 then (List.range 20).map (fun (k : ℕ) => [(k : ℚ)]) else [])
            2 1 5).length : ℚ)) :=
  C7_cluster_waveforms_mean [SpikeRow.mk 5 0 12, SpikeRow.mk 5 0 13]
    (fun r => if r = 0 then (List.range 20).map (fun (k : ℕ) => [(k : ℚ)]) else [])
    2 1 5 (by decide)

/-- C10: the final `waveforms /= counts` is unguarded — on an input whose
only spike of cluster 7 is filtered out by the boundary conditions, the
cluster's count is zero and every waveform entry of that cluster is the
result of a division by zero, i.e. non-finite (`none` in this model)
rather than an error. -/
theorem C10_unguarded_zero_count_nan :
    (SpikeRow.mk 7 0 1) ∈ [SpikeRow.mk 7 0 1] ∧
    (survivors [SpikeRow.mk 7 0 1] (fun _ => [[(0 : ℚ)], [0], [0]]) 10 30 7).length = 0 ∧
    (cwf_state [SpikeRow.mk 7 0 1] (fun _ => [[(0 : ℚ)], [0], [0]]) 10 30).counts 7 = 0 ∧
    ∀ i ch : ℕ, compute_cluster_waveforms_fast [SpikeRow.mk 7 0 1]
      (fun _ => [[(0 : ℚ)], [0], [0]]) 10 30 7 i ch = none := by
  have hcnt : (cwf_state [SpikeRow.mk 7 0 1]
      (fun _ => [[(0 : ℚ)], [0], [0]]) 10 30).counts 7 = 0 := by
    rw [counts_bridge]
    decide
  refine ⟨List.mem_cons_self _ _, by decide, hcnt, ?_⟩
  intro i ch
  show divNaN ((cwf_state [SpikeRow.mk 7 0 1]
      (fun _ => [[(0 : ℚ)], [0], [0]]) 10 30).waveforms 7 i ch)
    ((cwf_state [SpikeRow.mk 7 0 1]
      (fun _ => [[(0 : ℚ)], [0], [0]]) 10 30).counts 7) = none
  rw [hcnt]
  rfl

end Ephys